import Mathlib

/-!
# Verification of the streaming voice-assistant client

A shallow embedding of `src/client.py` and proofs about it.

The client captures microphone audio into a thread-safe FIFO (`queue.Queue`),
aggregates the queued frames into chunks for one streaming-recognition session
(`_audio_data_generator`), replays a bounded overlap window at each session
start, and drives a two-flag dialog state machine over the transcripts
returned by the service (`listen_print_loop`, `getting_bots_attention`).

Modelling choices:
* a raw audio frame (a Python `bytes` chunk) is a `List Nat` of its bytes;
* the queue sentinel `None` is `Option.none`, a real frame `f` is `some f`;
* `queue.Queue` is a `List` whose head is the front: `get` pops the head,
  `put` appends at the tail;
* the `collections.deque(maxlen=...)` overlap buffer is a `List Frame`
  truncated to its last `maxlen` elements on every `extend`;
* one batch is the list the loop variable `data` of `_audio_data_generator`
  holds after the blocking `get` plus the non-blocking drain, so a session is
  driven by the list of its batches;
* Python exceptions are the error side of `Except`;
* transcript strings are lists of characters.
-/

namespace SpeechRecog

/-- Raw audio bytes of one captured frame (a Python `bytes` value). -/
abbrev Frame := List Nat

/-- One element of the frame queue: `some f` is a real audio frame and `none`
is the Python `None` close sentinel. -/
abbrev QElem := Option Frame

/-- The thread-safe FIFO `queue.Queue` shared by the three flows: the head of
the list is the front (the next `get`), and `put` appends at the tail. -/
abbrev FrameQueue := List QElem

/-- Transcript text: a Python string as a list of characters. -/
abbrev Text := List Char

/-- Exceptions the embedded code can raise. -/
inductive PyErr where
  /-- The `raise RuntimeError` of `listen_print_loop` (client.py line 207),
  carrying the server-error tag followed by the service message. -/
  | runtimeError (msg : Text)
  /-- The `TypeError` Python raises when the bytes join meets a list element
  that is still `None` (client.py line 118 on a batch with a second
  sentinel). -/
  | typeError
  /-- The `IndexError` raised by `result.alternatives[0]` on an empty
  `alternatives` list (client.py line 217). -/
  | indexError
deriving DecidableEq

/-- Constant `RATE = 16000` (client.py line 18). -/
def RATE : Nat := 16000

/-- Constant `CHUNK = int(RATE / 10)` (client.py line 19). -/
def CHUNK : Nat := RATE / 10

/-- Constant `SECS_OVERLAP = 1` (client.py line 20). -/
def SECS_OVERLAP : Nat := 1

/-- Capacity of the overlap deque,
`maxlen=self.SECS_OVERLAP * self.RATE / self.CHUNK` (client.py line 46).
Python 2 true division yields the float `10.0`, which the deque constructor
converts back to the integer `10`; the division is exact, so a `Nat` division
is faithful. -/
def OVERLAP_MAXLEN : Nat := SECS_OVERLAP * RATE / CHUNK

/-- Constant `BOT_NAME` — the wake word Jarvis (client.py line 29). -/
def BOT_NAME : Text := ['J', 'a', 'r', 'v', 'i', 's']

/-- Status code `code_pb2.OK` of `google.rpc` (value `0`). -/
def OK : Nat := 0

/-- Enum value `resp.END_OF_UTTERANCE` of the v1beta1
`StreamingRecognizeResponse.EndpointerType`; only its distinctness from the
other endpointer values matters here. -/
def END_OF_UTTERANCE : Nat := 4

/-- Operation `queue.Queue.put`: append at the tail of the FIFO
(client.py lines 118, 128, 157, 213). -/
def qput (q : FrameQueue) (x : QElem) : FrameQueue := q ++ [x]

/-- Concatenation (the bytes join) over a batch whose elements are real frames
(the embedding only applies it after the `None` checks the code performs). -/
def joinQ (l : List QElem) : Frame := (l.filterMap id).flatten

/-- Operation `overlap_buffer.extend(data)` on the
`collections.deque(maxlen=OVERLAP_MAXLEN)` (client.py line 121): append all
frames, evicting from the left so that at most `OVERLAP_MAXLEN` remain. -/
def ovlExtend (ovl : List Frame) (data : List Frame) : List Frame :=
  (ovl ++ data).rtake OVERLAP_MAXLEN

/-- Result of running `_audio_data_generator` over one session. -/
structure AggResult where
  /-- Chunks the generator yielded, in order (overlap replay included). -/
  yields : List Frame
  /-- Chunk pushed back into the queue on consuming the sentinel, if any. -/
  reenq : Option Frame
  /-- Content of `overlap_buffer` when the generator stopped. -/
  ovlFinal : List Frame
deriving DecidableEq

/-- The `while True` loop of `_audio_data_generator` (client.py lines
102–123), run over the successive drained batches of the session with current
overlap buffer `ovl`.  A batch containing `None` ends the loop: `None` is
removed (`data.remove(None)` drops only the first occurrence), any remaining
data is joined — a `TypeError` if a second `None` is still present — and
re-enqueued; otherwise the batch extends the overlap buffer and its
concatenation is yielded. -/
def runAggLoop : List (List QElem) → List Frame → Except PyErr AggResult
  | [], ovl => .ok ⟨[], none, ovl⟩
  | b :: bs, ovl =>
    if b.contains none then
      let data := b.erase none
      if data = [] then .ok ⟨[], none, ovl⟩
      else if data.contains none then .error .typeError
      else .ok ⟨[], some (joinQ data), ovl⟩
    else
      match runAggLoop bs (ovlExtend ovl (b.filterMap id)) with
      | .error e => .error e
      | .ok r => .ok ⟨joinQ b :: r.yields, r.reenq, r.ovlFinal⟩

/-- Generator `_audio_data_generator` (client.py lines 89–123) for one
session: if the overlap buffer is non-empty its concatenation is yielded
first and the buffer is cleared, then the main loop runs over the batches of
the session. -/
def runAgg (batches : List (List QElem)) (ovl₀ : List Frame) :
    Except PyErr AggResult :=
  match runAggLoop batches [] with
  | .error e => .error e
  | .ok r =>
    .ok ⟨(if ovl₀ = [] then [] else [ovl₀.flatten]) ++ r.yields,
      r.reenq, r.ovlFinal⟩

/-- Sentinel-batch handling of `_audio_data_generator` (client.py lines
113–119) together with its effect on the shared queue: `q` is the queue
content at the moment of the `buff.put`, i.e. whatever the capture flow
enqueued after the drain. -/
def consumeSentinelBatch (batch : List QElem) (q : FrameQueue) :
    Except PyErr FrameQueue :=
  let data := batch.erase none
  if data = [] then .ok q
  else if data.contains none then .error .typeError
  else .ok (qput q (some (joinQ data)))

/-- Modelled from the spec: push their concatenation back onto the front of
the queue, so the next aggregator instance sees them first — a push at the
FRONT of the FIFO, for comparison with the `qput` the code performs. -/
def putFrontSpec (q : FrameQueue) (x : QElem) : FrameQueue := x :: q

/-- Whitespace set of Python `str.split()` with no argument. -/
def isSpaceChar (c : Char) : Bool :=
  c = ' ' || c = '\t' || c = '\n' || c = '\r' || c = '\x0b' || c = '\x0c'

/-- Python `str.split()` with no argument: the maximal runs of non-whitespace
characters, in order; leading, trailing and repeated whitespace produce no
empty tokens. -/
def splitWS : Text → List Text
  | [] => []
  | c :: rest =>
    if isSpaceChar c then splitWS rest
    else (c :: rest.takeWhile (fun d => !isSpaceChar d)) ::
      splitWS (rest.dropWhile (fun d => !isSpaceChar d))
termination_by l => l.length
decreasing_by
  all_goals simp only [List.length_cons, Nat.lt_succ_iff]
  · exact Nat.le_refl _
  · exact (List.dropWhile_sublist _).length_le

/-- Predicate `getting_bots_attention` (client.py lines 231–232):
`self.BOT_NAME.lower() in text.lower().split()`. -/
def getting_bots_attention (text : Text) : Bool :=
  (splitWS (text.map Char.toLower)).contains (BOT_NAME.map Char.toLower)

/-- Modelled from the spec: text `l` contains the word `w` as a whole word —
an occurrence delimited on the left by start-of-text or whitespace and on the
right by end-of-text or whitespace (case handling is done by the caller on
the lowered text). -/
def WordAt (w l : Text) : Prop :=
  ∃ pre suf, l = pre ++ w ++ suf ∧
    (pre = [] ∨ ∃ d, pre.getLast? = some d ∧ isSpaceChar d = true) ∧
    (suf = [] ∨ ∃ d s', suf = d :: s' ∧ isSpaceChar d = true)

/-- Outcome of one run of the dialog-flag block (client.py lines 219–228):
the two instance flags plus the commands printed by line 225. -/
structure DialogOut where
  /-- Flag `self.listening_for_prompt` after the block. -/
  listening_for_prompt : Bool
  /-- Flag `self.listening_for_command` after the block. -/
  listening_for_command : Bool
  /-- Transcripts announced as heard commands (line 225) during the block. -/
  heard : List Text
deriving DecidableEq

/-- Dialog-flag block of `listen_print_loop` (client.py lines 219–228) for
one transcript: the three `if` statements run in order and each reads the
flags as left by the previous one.  `p0`/`c0` are `listening_for_prompt` and
`listening_for_command` on entry. -/
def dialogStep (p0 c0 : Bool) (transcript : Text) (is_final : Bool) :
    DialogOut :=
  let p1 := if p0 && getting_bots_attention transcript then false else p0
  let c2 := if c0 && is_final then false else c0
  let p2 := if c0 && is_final then true else p1
  let heard := if c0 && is_final then [transcript] else []
  let c3 := if !p2 && !c2 && is_final then true else c2
  ⟨p2, c3, heard⟩

/-- Status message attached to an inbound response (`resp.error`). -/
structure RpcStatus where
  /-- Numeric `google.rpc` code; `OK = 0`. -/
  code : Nat
  /-- Service-provided message text. -/
  message : Text
deriving DecidableEq

/-- One recognition alternative (`alternatives[i]`). -/
structure SpeechAlt where
  /-- Transcript text of this alternative. -/
  transcript : Text
deriving DecidableEq

/-- One streaming recognition result (`resp.results[i]`). -/
structure RecogResult where
  /-- Candidate transcripts, best first. -/
  alternatives : List SpeechAlt
  /-- Finality flag `result.is_final`. -/
  is_final : Bool
deriving DecidableEq

/-- One inbound `StreamingRecognizeResponse`. -/
structure RecogResponse where
  /-- Status; non-`OK` signals a server error. -/
  error : RpcStatus
  /-- Recognition results, possibly empty. -/
  results : List RecogResult
  /-- Endpointer marker (`resp.endpointer_type`). -/
  endpointer_type : Nat
deriving DecidableEq

/-- Message text prepended to the service message by line 207. -/
def serverErrorTag : Text :=
  ['S', 'e', 'r', 'v', 'e', 'r', ' ', 'e', 'r', 'r', 'o', 'r', ':', ' ']

/-- Body of the `for resp in recognize_stream` loop of `listen_print_loop`
(client.py lines 205–228) for a single response: raises on a non-`OK`
status; on an empty result list enqueues the close sentinel exactly when the
endpointer marker is `END_OF_UTTERANCE` and otherwise does nothing; else
runs the dialog-flag block on the first alternative of the first result. -/
def listenStep (resp : RecogResponse) (p c : Bool) (q : FrameQueue) :
    Except PyErr (Bool × Bool × FrameQueue × List Text) :=
  if resp.error.code ≠ OK then
    .error (.runtimeError (serverErrorTag ++ resp.error.message))
  else
    match resp.results with
    | [] =>
      if resp.endpointer_type = END_OF_UTTERANCE then .ok (p, c, qput q none, [])
      else .ok (p, c, q, [])
    | result :: _ =>
      match result.alternatives with
      | [] => .error .indexError
      | alt :: _ =>
        let s := dialogStep p c alt.transcript result.is_final
        .ok (s.listening_for_prompt, s.listening_for_command, q, s.heard)

/-- Function `listen_print_loop` (client.py lines 196–228) over the whole
inbound response sequence of one session, threading the dialog flags and the
frame queue and collecting the announced commands. -/
def listenPrintLoop : List RecogResponse → Bool → Bool → FrameQueue →
    Except PyErr (Bool × Bool × FrameQueue × List Text)
  | [], p, c, q => .ok (p, c, q, [])
  | resp :: rest, p, c, q =>
    match listenStep resp p c q with
    | .error e => .error e
    | .ok (p', c', q', cs) =>
      match listenPrintLoop rest p' c' q' with
      | .error e => .error e
      | .ok (p'', c'', q'', cs') => .ok (p'', c'', q'', cs ++ cs')

/-- Reconnect loop of `listen` (client.py lines 56–73): each element of
`sessions` is the inbound response sequence of one streaming session; the
loop runs `listen_print_loop` on the current session and, if it returns
normally, opens the next session.  A Python exception other than the
`grpc.RpcError` swallowed at line 71 propagates out of `listen`.  Returns
the outcome together with the number of sessions whose responses were
consumed. -/
def listenRun : List (List RecogResponse) → Bool → Bool → FrameQueue →
    Except PyErr (Bool × Bool × FrameQueue) × Nat
  | [], p, c, q => (.ok (p, c, q), 0)
  | s :: rest, p, c, q =>
    match listenPrintLoop s p c q with
    | .error e => (.error e, 1)
    | .ok (p', c', q', _) =>
      let out := listenRun rest p' c' q'
      (out.1, out.2 + 1)

/-- Modelled from the spec (§3): the `TranscriptEvent` taxonomy derived from
each inbound response. -/
inductive TranscriptEvent where
  /-- Spec variant `Error` with the service-provided message. -/
  | fatalError (message : Text)
  /-- Spec variant `EndOfUtterance`. -/
  | endOfUtterance
  /-- Spec variant `PartialResult` with the text of the first alternative. -/
  | interimResult (text : Text)
  /-- Spec variant `FinalResult` with the text of the first alternative. -/
  | finalResult (text : Text)
deriving DecidableEq

/-- Modelled from the spec (§3): classification of an inbound response into a
`TranscriptEvent`; `none` means the response is dropped without an event.
The text of the first alternative defaults to the empty text when the
presupposition of the spec that an alternative exists fails. -/
def classifyEvent (resp : RecogResponse) : Option TranscriptEvent :=
  if resp.error.code ≠ OK then some (.fatalError resp.error.message)
  else
    match resp.results with
    | [] =>
      if resp.endpointer_type = END_OF_UTTERANCE then some .endOfUtterance
      else none
    | result :: _ =>
      let text := (result.alternatives.headD ⟨[]⟩).transcript
      some (if result.is_final then .finalResult text else .interimResult text)

/-- Dialog-flag state reached from the `__init__` state
(`listening_for_prompt = True`, `listening_for_command = False`, client.py
lines 35–36) after processing a list of transcript events, each given as
(transcript, is_final). -/
def dialogRun (evs : List (Text × Bool)) : Bool × Bool :=
  evs.foldl
    (fun st ev =>
      let s := dialogStep st.1 st.2 ev.1 ev.2
      (s.listening_for_prompt, s.listening_for_command))
    (true, false)

/-- Sample text hey Jarvis. -/
def heyJarvisText : Text :=
  ['h', 'e', 'y', ' ', 'J', 'a', 'r', 'v', 'i', 's']

/-- Sample text Jarviston. -/
def jarvistonText : Text :=
  ['J', 'a', 'r', 'v', 'i', 's', 't', 'o', 'n']

lemma attention_hey_jarvis : getting_bots_attention heyJarvisText = true := by
  have hm : heyJarvisText.map Char.toLower =
      ['h', 'e', 'y', ' ', 'j', 'a', 'r', 'v', 'i', 's'] := by decide
  have hb : BOT_NAME.map Char.toLower = ['j', 'a', 'r', 'v', 'i', 's'] := by
    decide
  rw [getting_bots_attention, hm, hb]
  simp [splitWS, isSpaceChar]

lemma attention_jarviston : getting_bots_attention jarvistonText = false := by
  have hm : jarvistonText.map Char.toLower =
      ['j', 'a', 'r', 'v', 'i', 's', 't', 'o', 'n'] := by decide
  have hb : BOT_NAME.map Char.toLower = ['j', 'a', 'r', 'v', 'i', 's'] := by
    decide
  rw [getting_bots_attention, hm, hb]
  simp [splitWS, isSpaceChar]

lemma filterMap_erase_none (l : List QElem) :
    (l.erase none).filterMap id = l.filterMap id := by
  induction l with
  | nil => rfl
  | cons a l ih => cases a <;> simp [List.erase_cons, ih]

lemma not_mem_erase_none {l : List QElem} (h : l.count none = 1) :
    none ∉ l.erase none := by
  have hc := List.count_erase_self none l
  rw [h] at hc
  exact List.count_eq_zero.mp hc

/-- C3: a FinalResult in state AwaitingCommand (flags false/true) announces
exactly the one command carried by the transcript and returns the flags to
AwaitingWakeWord (true/false); a non-final transcript never announces a
command in any flag state, and no event announces a command from a state
whose `listening_for_command` flag is off. -/
theorem command_emission_resets_state :
    (∀ t : Text, dialogStep false true t true = ⟨true, false, [t]⟩) ∧
    (∀ p c : Bool, ∀ t : Text, (dialogStep p c t false).heard = []) ∧
    (∀ p f : Bool, ∀ t : Text, (dialogStep p false t f).heard = []) := by
  refine ⟨fun t => ?_, fun p c t => ?_, fun p f t => ?_⟩
  · simp [dialogStep]
  · cases p <;> cases c <;> simp [dialogStep]
  · cases p <;> cases f <;> simp [dialogStep]

/-- C4: a final transcript containing the wake word moves the machine from
AwaitingWakeWord (flags true/false) to AwaitingCommand (false/true) in the
same invocation, announcing nothing; the same text in a non-final result
only reaches Armed (false/false). -/
theorem same_turn_arming (t : Text) (h : getting_bots_attention t = true) :
    dialogStep true false t true = ⟨false, true, []⟩ ∧
    dialogStep true false t false = ⟨false, false, []⟩ := by
  constructor <;> simp [dialogStep, h]

/-- Witness for `same_turn_arming` at the text hey Jarvis. -/
theorem same_turn_arming_witness :
    dialogStep true false heyJarvisText true = ⟨false, true, []⟩ ∧
    dialogStep true false heyJarvisText false = ⟨false, false, []⟩ :=
  same_turn_arming heyJarvisText attention_hey_jarvis

lemma dialog_fold_ne (evs : List (Text × Bool)) :
    ∀ st : Bool × Bool, st ≠ (true, true) →
      evs.foldl
        (fun st ev =>
          let s := dialogStep st.1 st.2 ev.1 ev.2
          (s.listening_for_prompt, s.listening_for_command)) st ≠
        (true, true) := by
  induction evs with
  | nil => intro st h; simpa using h
  | cons e evs ih =>
    intro st h
    rw [List.foldl_cons]
    apply ih
    obtain ⟨p, c⟩ := st
    cases p <;> cases c <;>
      cases hf : e.2 <;> cases hA : getting_bots_attention e.1 <;>
        simp_all [dialogStep]

/-- C10: from the initial flag state of `__init__`, any sequence of
transcript events leaves the two dialog flags in one of the three states
AwaitingWakeWord (true/false), Armed (false/false) and AwaitingCommand
(false/true) — never both true — and each of the three is reachable. -/
theorem dialog_flags_well_formed :
    (∀ evs : List (Text × Bool),
      dialogRun evs ∈ [(true, false), (false, false), (false, true)]) ∧
    dialogRun [] = (true, false) ∧
    dialogRun [(heyJarvisText, false)] = (false, false) ∧
    dialogRun [(heyJarvisText, true)] = (false, true) := by
  refine ⟨fun evs => ?_, rfl, ?_, ?_⟩
  · have hd : dialogRun evs ≠ (true, true) :=
      dialog_fold_ne evs (true, false) (by simp)
    rcases hdr : dialogRun evs with ⟨p, c⟩
    rw [hdr] at hd
    cases p <;> cases c <;> simp_all
  · simp [dialogRun, dialogStep, attention_hey_jarvis]
  · simp [dialogRun, dialogStep, attention_hey_jarvis]

/-- C9 fails on the code: a drained batch holding two close sentinels makes
`data.remove(None)` drop only the first one, so the bytes join of the rest
raises a `TypeError` instead of terminating the generator cleanly. -/
theorem duplicate_sentinel_raises :
    runAgg [[some [7], none, none]] [] = .error .typeError ∧
    runAgg [[none, none]] [] = .error .typeError ∧
    consumeSentinelBatch [none, none] [] = .error .typeError :=
  ⟨rfl, rfl, rfl⟩

/-- C2 is false as stated: the re-enqueued concatenation goes through
`queue.Queue.put`, which appends at the BACK of the FIFO; with frame `[3]`
already in the queue (captured after the drain), the next aggregator
dequeues `[3]` before the preserved chunk `[2]`, unlike the front-push the
spec describes. -/
theorem sentinel_reenqueue_not_front :
    consumeSentinelBatch [some [2], none] [some [3]] =
      .ok [some [3], some [2]] ∧
    putFrontSpec [some [3]] (some [2]) = [some [2], some [3]] ∧
    ([some [3], some [2]] : FrameQueue).head? = some (some [3]) ∧
    ([some [3], some [2]] : FrameQueue) ≠ [some [2], some [3]] := by
  exact ⟨rfl, rfl, rfl, by decide⟩

/-- C2 (amended): when the drained batch contains the close sentinel once
together with real frames, their concatenation — in capture order — is
pushed onto the BACK of the queue; hence the next aggregator instance
dequeues it before every frame enqueued after the re-enqueue itself, and
first of all exactly when the queue was empty at the moment of the put. -/
theorem sentinel_reenqueue_back (batch : List QElem) (q : FrameQueue)
    (h1 : batch.count none = 1) (h2 : batch.filterMap id ≠ []) :
    consumeSentinelBatch batch q =
      .ok (q ++ [some ((batch.filterMap id).flatten)]) ∧
    ∀ later : List Frame,
      ((q ++ [some ((batch.filterMap id).flatten)]) ++ later.map some).head? =
        if q = [] then some (some ((batch.filterMap id).flatten))
        else q.head? := by
  constructor
  · have hfm := filterMap_erase_none batch
    have hne : batch.erase none ≠ [] := by
      intro h0
      rw [h0] at hfm
      exact h2 hfm.symm
    have hnm : none ∉ batch.erase none := not_mem_erase_none h1
    have hc : (batch.erase none).contains none = false := by simpa using hnm
    rw [consumeSentinelBatch]
    simp [hne, hc, qput, joinQ, hfm, hnm]
  · intro later
    cases q <;> simp

/-- Witness for `sentinel_reenqueue_back` on the batch `[[2], None, [4]]`. -/
theorem sentinel_reenqueue_back_witness :
    ([some [2], none, some [4]] : List QElem).count none = 1 ∧
    ([some [2], none, some [4]] : List QElem).filterMap id ≠ [] ∧
    consumeSentinelBatch [some [2], none, some [4]] [] =
      .ok [some [2, 4]] := by
  refine ⟨by decide, by decide, ?_⟩
  have h := (sentinel_reenqueue_back [some [2], none, some [4]] []
    (by decide) (by decide)).1
  simpa using h

lemma length_rtake_le (l : List Frame) (n : Nat) : (l.rtake n).length ≤ n := by
  rw [List.rtake_eq_reverse_take_reverse]
  simp only [List.length_reverse, List.length_take]
  exact min_le_left _ _

lemma rtake_all {l : List Frame} {n : Nat} (h : l.length ≤ n) :
    l.rtake n = l := by
  unfold List.rtake
  rw [Nat.sub_eq_zero_of_le h, List.drop_zero]

lemma take_append_take (X Y : List Frame) (n : Nat) :
    (X ++ Y.take n).take n = (X ++ Y).take n := by
  rw [List.take_append_eq_append_take, List.take_append_eq_append_take,
    List.take_take, min_eq_left (Nat.sub_le n X.length)]

lemma rtake_append_rtake (A B : List Frame) (n : Nat) :
    (A.rtake n ++ B).rtake n = (A ++ B).rtake n := by
  rw [List.rtake_eq_reverse_take_reverse, List.rtake_eq_reverse_take_reverse,
    List.rtake_eq_reverse_take_reverse]
  rw [List.reverse_append, List.reverse_reverse, List.reverse_append]
  rw [take_append_take]

lemma flatten_map_joinQ (batches : List (List QElem)) :
    (batches.map joinQ).flatten = ((batches.flatten).filterMap id).flatten := by
  induction batches with
  | nil => rfl
  | cons b bs ih => simp [joinQ, ih, List.filterMap_append]

lemma runAggLoop_spec (batches : List (List QElem)) (lastb : List QElem)
    (ovl : List Frame)
    (hfresh : ∀ b ∈ batches, none ∉ b)
    (hlast : lastb.count none = 1)
    (hovl : ovl.length ≤ OVERLAP_MAXLEN) :
    ∃ r, runAggLoop (batches ++ [lastb]) ovl = .ok r ∧
      r.yields = batches.map joinQ ∧
      r.reenq = (if lastb.erase none = [] then none
        else some ((lastb.filterMap id).flatten)) ∧
      r.ovlFinal =
        (ovl ++ (batches.map (fun b => b.filterMap id)).flatten).rtake
          OVERLAP_MAXLEN := by
  induction batches generalizing ovl with
  | nil =>
    have hmem : none ∈ lastb := List.count_pos_iff.mp (by omega)
    have hcont : lastb.contains none = true := by simpa using hmem
    have hnm := not_mem_erase_none hlast
    have hcont2 : (lastb.erase none).contains none = false := by simpa using hnm
    by_cases hdata : lastb.erase none = []
    · refine ⟨⟨[], none, ovl⟩, ?_, rfl, by simp [hdata], ?_⟩
      · rw [List.nil_append, runAggLoop]
        simp [hmem, hdata]
      · simp [rtake_all hovl]
    · refine ⟨⟨[], some (joinQ (lastb.erase none)), ovl⟩, ?_, rfl, ?_, ?_⟩
      · rw [List.nil_append, runAggLoop]
        simp [hmem, hdata, hnm]
      · simp [hdata, joinQ, filterMap_erase_none]
      · simp [rtake_all hovl]
  | cons b bs ih =>
    have hb : none ∉ b := hfresh b (List.mem_cons_self b bs)
    have hcont : b.contains none = false := by simpa using hb
    obtain ⟨r, hr, hy, hq, ho⟩ :=
      ih (ovlExtend ovl (b.filterMap id))
        (fun x hx => hfresh x (List.mem_cons_of_mem b hx))
        (length_rtake_le _ _)
    refine ⟨⟨joinQ b :: r.yields, r.reenq, r.ovlFinal⟩, ?_, ?_, hq, ?_⟩
    · rw [List.cons_append, runAggLoop]
      simp only [hcont]
      rw [hr]
      simp
    · simp [hy]
    · rw [ho]
      unfold ovlExtend
      rw [rtake_append_rtake]
      simp [List.append_assoc]

/-- C1: over one session whose drained batches hold no sentinel until a final
batch holding exactly one, the generator succeeds and the concatenation of
everything it yields followed by the chunk it re-enqueues equals the initial
overlap replay followed by the concatenation of every enqueued real frame —
so no audio is lost and the overlap replay is the only duplicated prefix. -/
theorem aggregator_no_loss (batches : List (List QElem)) (lastb : List QElem)
    (ovl₀ : List Frame)
    (hfresh : ∀ b ∈ batches, none ∉ b)
    (hlast : lastb.count none = 1) :
    ∃ r, runAgg (batches ++ [lastb]) ovl₀ = .ok r ∧
      r.yields.flatten ++ r.reenq.getD [] =
        ovl₀.flatten ++
          (((batches ++ [lastb]).flatten).filterMap id).flatten := by
  obtain ⟨r, hr, hy, hq, _⟩ :=
    runAggLoop_spec batches lastb [] hfresh hlast (by simp)
  refine ⟨⟨(if ovl₀ = [] then [] else [ovl₀.flatten]) ++ r.yields,
    r.reenq, r.ovlFinal⟩, ?_, ?_⟩
  · rw [runAgg, hr]
  · have hpre :
        ((if ovl₀ = [] then [] else [ovl₀.flatten]) : List Frame).flatten =
          ovl₀.flatten := by
      by_cases h0 : ovl₀ = [] <;> simp [h0]
    have hlast2 :
        (lastb.filterMap id).flatten = r.reenq.getD [] := by
      rw [hq]
      by_cases hdata : lastb.erase none = []
      · have := filterMap_erase_none lastb
        rw [hdata] at this
        simp [hdata, ← this]
      · simp [hdata]
    simp [List.flatten_append, hpre, hy, flatten_map_joinQ,
      List.filterMap_append, ← hlast2, List.append_assoc]

/-- Witness for `aggregator_no_loss` on two fresh batches, a sentinel batch
carrying one trailing frame, and a non-empty initial overlap buffer. -/
theorem aggregator_no_loss_witness :
    (∀ b ∈ ([[some [1], some [2]], [some [3]]] : List (List QElem)),
      none ∉ b) ∧
    ([some [4], none] : List QElem).count none = 1 ∧
    ∃ r,
      runAgg ([[some [1], some [2]], [some [3]]] ++ [[some [4], none]])
        [[9]] = .ok r ∧
      r.yields.flatten ++ r.reenq.getD [] =
        ([[9]] : List Frame).flatten ++
          (((([[some [1], some [2]], [some [3]]] : List (List QElem)) ++
            [[some [4], none]]).flatten).filterMap id).flatten :=
  ⟨by decide, by decide,
    aggregator_no_loss [[some [1], some [2]], [some [3]]] [some [4], none]
      [[9]] (by decide) (by decide)⟩

/-- C8: the overlap deque capacity is `ceil(SECS_OVERLAP * RATE / CHUNK)`,
i.e. 10 frames; every `extend` keeps at most that many frames, evicting the
oldest; at the end of a session the buffer holds exactly the last at most
`OVERLAP_MAXLEN` frames forwarded fresh during that session, and the next
session then yields their concatenation as its first chunk. -/
theorem overlap_window_bounded :
    OVERLAP_MAXLEN = 10 ∧
    ⌈((SECS_OVERLAP : ℚ) * (RATE : ℚ)) / (CHUNK : ℚ)⌉ = (10 : ℤ) ∧
    (∀ ovl data : List Frame,
      (ovlExtend ovl data).length ≤ OVERLAP_MAXLEN) ∧
    (∀ batches lastb ovl₀, (∀ b ∈ batches, none ∉ b) →
      lastb.count none = 1 →
      ∃ r, runAgg (batches ++ [lastb]) ovl₀ = .ok r ∧
        r.ovlFinal =
          ((batches.map (fun b => b.filterMap id)).flatten).rtake
            OVERLAP_MAXLEN ∧
        ∀ batches' r', runAgg batches' r.ovlFinal = .ok r' →
          r.ovlFinal ≠ [] → r'.yields.head? = some r.ovlFinal.flatten) := by
  refine ⟨rfl, ?_, fun ovl data => length_rtake_le _ _,
    fun batches lastb ovl₀ hfresh hlast => ?_⟩
  · rw [show ((SECS_OVERLAP : ℚ) * (RATE : ℚ)) / (CHUNK : ℚ) = 10 by
      norm_num [SECS_OVERLAP, RATE, CHUNK]]
    norm_num
  · obtain ⟨r, hr, _, _, ho⟩ :=
      runAggLoop_spec batches lastb [] hfresh hlast (by simp)
    refine ⟨⟨(if ovl₀ = [] then [] else [ovl₀.flatten]) ++ r.yields,
      r.reenq, r.ovlFinal⟩, ?_, ?_, ?_⟩
    · rw [runAgg, hr]
    · rw [ho]
      simp
    · intro batches' r' hrun hne
      rw [runAgg] at hrun
      rcases h2 : runAggLoop batches' [] with e | r₂ <;> rw [h2] at hrun
      · cases hrun
      · cases hrun
        simp [hne]

/-- Witness for the session part of `overlap_window_bounded` on one fresh
batch followed by a bare sentinel batch. -/
theorem overlap_window_bounded_witness :
    (∀ b ∈ ([[some [5]]] : List (List QElem)), none ∉ b) ∧
    ([none] : List QElem).count none = 1 ∧
    ∃ r, runAgg ([[some [5]]] ++ [[none]]) [] = .ok r ∧
      r.ovlFinal =
        ((([[some [5]]] : List (List QElem)).map
          (fun b => b.filterMap id)).flatten).rtake OVERLAP_MAXLEN ∧
      ∀ batches' r', runAgg batches' r.ovlFinal = .ok r' →
        r.ovlFinal ≠ [] → r'.yields.head? = some r.ovlFinal.flatten :=
  ⟨by decide, by decide,
    overlap_window_bounded.2.2.2 [[some [5]]] [none] [] (by decide)
      (by decide)⟩

/-- C6: classification of an inbound response — Error exactly on a non-OK
status (the loop body raises with that message); else, on empty results,
EndOfUtterance exactly when the endpointer marker signals utterance end (the
loop body enqueues the close sentinel and changes nothing else); else, on
empty results, dropped with no effect at all; else an interim or final
result according to the finality flag of the first result, carrying the
transcript of its first alternative, which is exactly the text the dialog
block runs on. -/
theorem response_classification (resp : RecogResponse) (p c : Bool)
    (q : FrameQueue) :
    (resp.error.code ≠ OK →
      classifyEvent resp = some (.fatalError resp.error.message) ∧
      listenStep resp p c q =
        .error (.runtimeError (serverErrorTag ++ resp.error.message))) ∧
    (resp.error.code = OK → resp.results = [] →
      resp.endpointer_type = END_OF_UTTERANCE →
      classifyEvent resp = some .endOfUtterance ∧
      listenStep resp p c q = .ok (p, c, qput q none, [])) ∧
    (resp.error.code = OK → resp.results = [] →
      resp.endpointer_type ≠ END_OF_UTTERANCE →
      classifyEvent resp = none ∧
      listenStep resp p c q = .ok (p, c, q, [])) ∧
    (∀ result rs alt alts, resp.error.code = OK →
      resp.results = result :: rs →
      result.alternatives = alt :: alts →
      classifyEvent resp = some (if result.is_final
        then .finalResult alt.transcript
        else .interimResult alt.transcript) ∧
      listenStep resp p c q =
        .ok
          ((dialogStep p c alt.transcript result.is_final).listening_for_prompt,
          (dialogStep p c alt.transcript result.is_final).listening_for_command,
          q,
          (dialogStep p c alt.transcript result.is_final).heard)) := by
  refine ⟨fun herr => ?_, fun hok hres heou => ?_, fun hok hres heou => ?_,
    fun result rs alt alts hok hres halt => ?_⟩
  · constructor <;> simp [classifyEvent, listenStep, herr]
  · constructor <;> simp [classifyEvent, listenStep, hok, hres, heou]
  · constructor <;> simp [classifyEvent, listenStep, hok, hres, heou]
  · constructor <;> simp [classifyEvent, listenStep, hok, hres, halt]

/-- Witness for `response_classification` on four concrete responses, one
per classification branch. -/
theorem response_classification_witness :
    classifyEvent ⟨⟨3, ['b']⟩, [], 0⟩ = some (.fatalError ['b']) ∧
    listenStep ⟨⟨OK, []⟩, [], END_OF_UTTERANCE⟩ true false [] =
      .ok (true, false, qput [] none, []) ∧
    classifyEvent ⟨⟨OK, []⟩, [], 0⟩ = none ∧
    classifyEvent ⟨⟨OK, []⟩, [⟨[⟨['h', 'i']⟩], true⟩], 0⟩ =
      some (.finalResult ['h', 'i']) := by
  refine ⟨((response_classification ⟨⟨3, ['b']⟩, [], 0⟩ true false []).1
      (by decide)).1, ?_, ?_, ?_⟩
  · exact ((response_classification ⟨⟨OK, []⟩, [], END_OF_UTTERANCE⟩
      true false []).2.1 rfl rfl rfl).2
  · exact ((response_classification ⟨⟨OK, []⟩, [], 0⟩
      true false []).2.2.1 rfl rfl (by decide)).1
  · have h := ((response_classification ⟨⟨OK, []⟩, [⟨[⟨['h', 'i']⟩], true⟩], 0⟩
      true false []).2.2.2 ⟨[⟨['h', 'i']⟩], true⟩ [] ⟨['h', 'i']⟩ []
      rfl rfl rfl).1
    simpa using h

lemma listenPrintLoop_append_error (pre post : List RecogResponse)
    (r : RecogResponse) (p c : Bool) (q : FrameQueue)
    (p1 c1 : Bool) (q1 : FrameQueue) (cs : List Text)
    (hpre : listenPrintLoop pre p c q = .ok (p1, c1, q1, cs))
    (herr : r.error.code ≠ OK) :
    listenPrintLoop (pre ++ r :: post) p c q =
      .error (.runtimeError (serverErrorTag ++ r.error.message)) := by
  induction pre generalizing p c q p1 c1 q1 cs with
  | nil =>
    rw [List.nil_append, listenPrintLoop]
    simp [listenStep, herr]
  | cons resp pre' ih =>
    rw [listenPrintLoop] at hpre
    rcases h1 : listenStep resp p c q with e | s <;> rw [h1] at hpre
    · cases hpre
    · obtain ⟨p', c', q', cs0⟩ := s
      dsimp only at hpre
      rcases h2 : listenPrintLoop pre' p' c' q' with e | s2 <;>
        rw [h2] at hpre
      · cases hpre
      · obtain ⟨p2, c2, q2, cs2⟩ := s2
        rw [List.cons_append, listenPrintLoop, h1]
        dsimp only
        rw [ih p' c' q' p2 c2 q2 cs2 h2]

/-- C7: a response carrying a non-OK status terminates the whole run with a
RuntimeError whose message carries the service-provided message as a suffix;
only the current session is consumed and the reconnect loop is not
re-entered, whatever sessions would have followed. -/
theorem fatal_error_aborts (pre post : List RecogResponse)
    (rest : List (List RecogResponse)) (r : RecogResponse) (p c : Bool)
    (q : FrameQueue) (p1 c1 : Bool) (q1 : FrameQueue) (cs : List Text)
    (hpre : listenPrintLoop pre p c q = .ok (p1, c1, q1, cs))
    (herr : r.error.code ≠ OK) :
    listenRun ((pre ++ r :: post) :: rest) p c q =
      (.error (.runtimeError (serverErrorTag ++ r.error.message)), 1) ∧
    r.error.message <:+ serverErrorTag ++ r.error.message := by
  constructor
  · rw [listenRun,
      listenPrintLoop_append_error pre post r p c q p1 c1 q1 cs hpre herr]
  · exact List.suffix_append serverErrorTag r.error.message

/-- Witness for `fatal_error_aborts`: a first session holding only one bad
response, with one further session pending that is never opened. -/
theorem fatal_error_aborts_witness :
    listenRun [[⟨⟨5, ['x']⟩, [], 0⟩], [⟨⟨OK, []⟩, [], 0⟩]] true false [] =
      (.error (.runtimeError (serverErrorTag ++ ['x'])), 1) ∧
    (['x'] : Text) <:+ serverErrorTag ++ ['x'] :=
  fatal_error_aborts [] [] [[⟨⟨OK, []⟩, [], 0⟩]] ⟨⟨5, ['x']⟩, [], 0⟩
    true false [] true false [] [] rfl (by decide)

lemma takeWhile_append_all {p : Char → Bool} {A : Text}
    (h : ∀ x ∈ A, p x = true) (B : Text) :
    (A ++ B).takeWhile p = A ++ B.takeWhile p := by
  induction A with
  | nil => simp
  | cons a A ih =>
    have ha := h a (List.mem_cons_self a A)
    simp [List.takeWhile_cons, ha,
      ih (fun x hx => h x (List.mem_cons_of_mem a hx))]

lemma dropWhile_cons_head {p : Char → Bool} :
    ∀ (l : Text) (d : Char) (s' : Text),
      l.dropWhile p = d :: s' → p d = false := by
  intro l
  induction l with
  | nil => intro d s' h; cases h
  | cons a l ih =>
    intro d s' h
    rw [List.dropWhile_cons] at h
    by_cases hp : p a = true
    · rw [if_pos hp] at h
      exact ih d s' h
    · rw [if_neg hp] at h
      injection h with h1 h2
      rw [← h1]
      simpa using hp

lemma wordAt_nil {w : Text} (hw : w ≠ []) : ¬ WordAt w [] := by
  rintro ⟨pre, suf, heq, -, -⟩
  obtain ⟨h1, -⟩ := List.append_eq_nil.mp heq.symm
  obtain ⟨-, h3⟩ := List.append_eq_nil.mp h1
  exact hw h3

lemma wordAt_cons_space {w : Text} (hw : w ≠ [])
    (hns : ∀ x ∈ w, isSpaceChar x = false) {c : Char} {rest : Text}
    (hc : isSpaceChar c = true) : WordAt w (c :: rest) ↔ WordAt w rest := by
  constructor
  · rintro ⟨pre, suf, heq, hpre, hsuf⟩
    cases pre with
    | nil =>
      exfalso
      cases w with
      | nil => exact hw rfl
      | cons x w' =>
        rw [List.nil_append, List.cons_append] at heq
        injection heq with hx hr
        have hxs := hns x (List.mem_cons_self x w')
        rw [← hx] at hxs
        rw [hc] at hxs
        cases hxs
    | cons p pre' =>
      rw [List.cons_append] at heq
      injection heq with hcp hrest
      refine ⟨pre', suf, hrest, ?_, hsuf⟩
      rcases hpre with h0 | ⟨d, hd, hds⟩
      · cases h0
      · cases pre' with
        | nil => exact Or.inl rfl
        | cons p2 pre2 =>
          rw [List.getLast?_cons_cons] at hd
          exact Or.inr ⟨d, hd, hds⟩
  · rintro ⟨pre, suf, heq, hpre, hsuf⟩
    refine ⟨c :: pre, suf, ?_, ?_, hsuf⟩
    · simp only [List.cons_append]
      rw [heq]
    · right
      cases pre with
      | nil => exact ⟨c, by simp, hc⟩
      | cons p pre' =>
        rcases hpre with h0 | ⟨d, hd, hds⟩
        · cases h0
        · rw [← List.getLast?_cons_cons (a := c)] at hd
          exact ⟨d, hd, hds⟩

lemma wordAt_cons_nonspace {w : Text} (hw : w ≠ [])
    (hns : ∀ x ∈ w, isSpaceChar x = false) {c : Char} {rest : Text}
    (hc : isSpaceChar c = false) :
    WordAt w (c :: rest) ↔
      (w = c :: rest.takeWhile (fun d => !isSpaceChar d) ∨
        WordAt w (rest.dropWhile (fun d => !isSpaceChar d))) := by
  set tok := c :: rest.takeWhile (fun d => !isSpaceChar d) with htokdef
  set rest' := rest.dropWhile (fun d => !isSpaceChar d) with hrestdef
  have hsplit : c :: rest = tok ++ rest' := by
    rw [htokdef, hrestdef]
    simp [List.takeWhile_append_dropWhile]
  have htok_ns : ∀ x ∈ tok, isSpaceChar x = false := by
    intro x hx
    rw [htokdef] at hx
    rcases List.mem_cons.mp hx with rfl | hx2
    · exact hc
    · simpa using List.mem_takeWhile_imp hx2
  constructor
  · rintro ⟨pre, suf, heq, hpre, hsuf⟩
    rcases hpre with rfl | ⟨d, hd, hds⟩
    · left
      rw [List.nil_append] at heq
      have htw : (c :: rest).takeWhile (fun d => !isSpaceChar d) = w := by
        rw [heq, takeWhile_append_all (fun x hx => by simp [hns x hx]) suf]
        rcases hsuf with rfl | ⟨d, s', rfl, hds⟩
        · simp
        · simp [List.takeWhile_cons, hds]
      have htok2 : (c :: rest).takeWhile (fun d => !isSpaceChar d) = tok := by
        rw [htokdef]
        simp [List.takeWhile_cons, hc]
      rw [← htw, htok2]
    · right
      have hpre_ne : pre ≠ [] := by
        intro h0
        rw [h0] at hd
        cases hd
      have heqA : c :: rest = pre ++ (w ++ suf) := by
        rw [heq, List.append_assoc]
      have heq2 : tok ++ rest' = pre ++ (w ++ suf) := hsplit.symm.trans heqA
      have hlen : tok.length < pre.length := by
        by_contra hle
        push_neg at hle
        have hpre_take : (c :: rest).take pre.length = pre := by
          rw [heqA, List.take_left]
        have htok_take : (c :: rest).take tok.length = tok := by
          rw [hsplit, List.take_left]
        have hsub : pre = tok.take pre.length := by
          calc pre = (c :: rest).take pre.length := hpre_take.symm
            _ = ((c :: rest).take tok.length).take pre.length := by
                rw [List.take_take, min_eq_left hle]
            _ = tok.take pre.length := by rw [htok_take]
        have hdmem : d ∈ pre := List.mem_of_mem_getLast? hd
        have hdtok : d ∈ tok := List.mem_of_mem_take (hsub ▸ hdmem)
        have hdf := htok_ns d hdtok
        rw [hds] at hdf
        cases hdf
      have hle' : tok.length ≤ pre.length := Nat.le_of_lt hlen
      have htak : tok = pre.take tok.length := by
        have h1 := congrArg (List.take tok.length) heq2
        rw [List.take_left, List.take_append_of_le_length hle'] at h1
        exact h1
      have hdrp : rest' = pre.drop tok.length ++ (w ++ suf) := by
        have h1 := congrArg (List.drop tok.length) heq2
        rw [List.drop_left, List.drop_append_of_le_length hle'] at h1
        exact h1
      have hpre2_ne : pre.drop tok.length ≠ [] := by
        have hpos : 0 < (pre.drop tok.length).length := by
          rw [List.length_drop]
          omega
        exact List.length_pos.mp hpos
      have hlast2 : (pre.drop tok.length).getLast? = some d := by
        have hsplit_pre := (List.take_append_drop tok.length pre).symm
        rw [hsplit_pre, List.getLast?_append] at hd
        rw [List.getLast?_eq_getLast _ hpre2_ne] at hd ⊢
        simpa using hd
      exact ⟨pre.drop tok.length, suf,
        (by rw [List.append_assoc]; exact hdrp), Or.inr ⟨d, hlast2, hds⟩,
        hsuf⟩
  · rintro (rfl | ⟨pre2, suf, heq2, hpre2, hsuf2⟩)
    · refine ⟨[], rest', by rw [List.nil_append]; exact hsplit, Or.inl rfl, ?_⟩
      rcases hr : rest' with _ | ⟨d, s'⟩
      · exact Or.inl rfl
      · exact Or.inr ⟨d, s', rfl, by
          simpa using dropWhile_cons_head rest d s' (hrestdef.symm.trans hr)⟩
    · rcases hpre2 with rfl | ⟨d, hd, hds⟩
      · exfalso
        rw [List.nil_append] at heq2
        cases w with
        | nil => exact hw rfl
        | cons x w' =>
          rw [List.cons_append] at heq2
          have hx : isSpaceChar x = true := by
            simpa using dropWhile_cons_head rest x (w' ++ suf)
              (hrestdef.symm.trans heq2)
          have hxf := hns x (List.mem_cons_self x w')
          rw [hxf] at hx
          cases hx
      · refine ⟨tok ++ pre2, suf, ?_, ?_, hsuf2⟩
        · rw [hsplit, heq2]
          simp [List.append_assoc]
        · right
          refine ⟨d, ?_, hds⟩
          rw [List.getLast?_append, hd]
          simp

lemma mem_splitWS_aux (w : Text) (hw : w ≠ [])
    (hns : ∀ x ∈ w, isSpaceChar x = false) :
    ∀ n : Nat, ∀ l : Text, l.length ≤ n →
      (w ∈ splitWS l ↔ WordAt w l) := by
  intro n
  induction n with
  | zero =>
    intro l hl
    have hl0 : l = [] := List.length_eq_zero.mp (Nat.le_zero.mp hl)
    subst hl0
    simp only [splitWS]
    simp [wordAt_nil hw]
  | succ n ih =>
    intro l hl
    cases l with
    | nil =>
      simp only [splitWS]
      simp [wordAt_nil hw]
    | cons c rest =>
      simp only [splitWS]
      by_cases hc : isSpaceChar c = true
      · rw [if_pos hc]
        rw [ih rest (by simpa using hl)]
        exact (wordAt_cons_space hw hns hc).symm
      · have hc' : isSpaceChar c = false := by simpa using hc
        rw [if_neg hc]
        rw [List.mem_cons]
        rw [ih (rest.dropWhile (fun d => !isSpaceChar d))
          (le_trans (List.dropWhile_sublist _).length_le (by simpa using hl))]
        exact (wordAt_cons_nonspace hw hns hc').symm

lemma mem_splitWS (w : Text) (hw : w ≠ [])
    (hns : ∀ x ∈ w, isSpaceChar x = false) (l : Text) :
    w ∈ splitWS l ↔ WordAt w l :=
  mem_splitWS_aux w hw hns l.length l (Nat.le_refl _)

/-- C5: `getting_bots_attention` returns true exactly when the lowered text
contains the lowered wake word as a whitespace-delimited whole word; the
text hey Jarvis matches while Jarviston does not, although the wake word
does occur in the latter as a mere substring. -/
theorem wake_word_whole_word :
    (∀ t : Text, getting_bots_attention t = true ↔
      WordAt (BOT_NAME.map Char.toLower) (t.map Char.toLower)) ∧
    getting_bots_attention heyJarvisText = true ∧
    getting_bots_attention jarvistonText = false ∧
    BOT_NAME.map Char.toLower <:+: jarvistonText.map Char.toLower := by
  refine ⟨fun t => ?_, attention_hey_jarvis, attention_jarviston, ?_⟩
  · rw [getting_bots_attention]
    have hmem : (splitWS (t.map Char.toLower)).contains
        (BOT_NAME.map Char.toLower) = true ↔
        BOT_NAME.map Char.toLower ∈ splitWS (t.map Char.toLower) := by
      simp [List.contains]
    rw [hmem]
    exact mem_splitWS (BOT_NAME.map Char.toLower) (by decide) (by decide)
      (t.map Char.toLower)
  · exact ⟨[], ['t', 'o', 'n'], by decide⟩

end SpeechRecog
